import Mathlib

/-
Verification of the adaptive-quantization field estimator of a JPEG XL style
encoder (enc_adaptive_quantization.cc).  Machine floats are modelled as real
numbers; C float division by zero is modelled by real division (which yields
zero), and the int cast of a nonnegative float is modelled by the floor.
-/

namespace JxlAq

noncomputable section

/-! ## Constants of the source file -/

def kDcQuantPow : ℝ := 0.55

def kDcQuant : ℝ := 1.18

def kAcQuant : ℝ := 0.84

def kSGmul : ℝ := 200

def kSGmul2 : ℝ := 1 / 74

def kLog2 : ℝ := 0.693147181

def kSGRetMul : ℝ := kSGmul2 * 18.6580932135 * kLog2

def kSGVOffset : ℝ := 7.14672470003

def mul0 : ℝ := 0.030220460298316064

def matchGammaOffset : ℝ := 0.6542639346391887

/-! ## FindBestQuantizationMaxError: the per-block multiplier

`float qf_mul = max_error < 0.5f ? max_error * 2.0f
                                 : max_error > 1.0f ? max_error : 1.0f;` -/

def qfMul (max_error : ℝ) : ℝ :=
  if max_error < 0.5 then max_error * 2
  else if max_error > 1 then max_error else 1

/-! ## AdjustQuantVal

Returns the pair (return value, final value of `*q`). -/

def AdjustQuantVal (q d factor quant_max : ℝ) : Bool × ℝ :=
  if q ≥ 0.999 * quant_max then (false, q)
  else (true, 1 / max (1 / quant_max) (1 / q - factor / (d + 1)))

/-! ## InitialQuantDC -/

def InitialQuantDC (butteraugli_target : ℝ) : ℝ :=
  let kDcMul : ℝ := 2.9
  let butteraugli_target_dc : ℝ :=
    min butteraugli_target
      (kDcMul * ((1 / kDcMul) * butteraugli_target) ^ kDcQuantPow)
  min (kDcQuant / butteraugli_target_dc) 50

/-! ## FindBestQuantization: search-range setup

`initial_qf_ratio = qf_max / qf_min`,
`qf_max_deviation_low = sqrt(250 / initial_qf_ratio)`,
`asymmetry = 2; if (dev < asymmetry) asymmetry = dev`,
`qf_lower = qf_min / (asymmetry * dev)`, `qf_higher = qf_max * (dev / asymmetry)`. -/

def qfMaxDeviationLow (qf_min qf_max : ℝ) : ℝ :=
  Real.sqrt (250 / (qf_max / qf_min))

def qfAsymmetry (qf_min qf_max : ℝ) : ℝ :=
  if qfMaxDeviationLow qf_min qf_max < 2 then qfMaxDeviationLow qf_min qf_max else 2

def qfLower (qf_min qf_max : ℝ) : ℝ :=
  qf_min / (qfAsymmetry qf_min qf_max * qfMaxDeviationLow qf_min qf_max)

def qfHigher (qf_min qf_max : ℝ) : ℝ :=
  qf_max * (qfMaxDeviationLow qf_min qf_max / qfAsymmetry qf_min qf_max)

/-- ImageMinMax over all cells of a w-by-h field, seeded at the first cell. -/
def imageMin (w h : ℕ) (f : ℕ → ℕ → ℝ) : ℝ :=
  (((List.range h).flatMap fun y => (List.range w).map fun x => f y x).foldl min (f 0 0))

/-- ImageMinMax over all cells of a w-by-h field, seeded at the first cell. -/
def imageMax (w h : ℕ) (f : ℕ → ℕ → ℝ) : ℝ :=
  (((List.range h).flatMap fun y => (List.range w).map fun x => f y x).foldl max (f 0 0))

end

/-! ## Generic fold lemmas -/

theorem foldl_min_le_init {l : List ℝ} {s : ℝ} : l.foldl min s ≤ s := by
  induction l generalizing s with
  | nil => simp
  | cons a t ih => exact le_trans ih (min_le_left _ _)

theorem foldl_max_init_le {l : List ℝ} {s : ℝ} : s ≤ l.foldl max s := by
  induction l generalizing s with
  | nil => simp
  | cons a t ih => exact le_trans (le_max_left _ _) ih

theorem foldl_min_pos {l : List ℝ} {s : ℝ} (hs : 0 < s) (hl : ∀ a ∈ l, 0 < a) :
    0 < l.foldl min s := by
  induction l generalizing s with
  | nil => simpa
  | cons a t ih =>
    refine ih (lt_min hs (hl a (by simp))) fun b hb => hl b (by simp [hb])

theorem foldl_min_le_max {w h : ℕ} {f : ℕ → ℕ → ℝ} :
    imageMin w h f ≤ imageMax w h f :=
  le_trans foldl_min_le_init foldl_max_init_le

theorem imageMin_pos {w h : ℕ} {f : ℕ → ℕ → ℝ} (hf : ∀ y x, 0 < f y x) :
    0 < imageMin w h f := by
  refine foldl_min_pos (hf 0 0) ?_
  intro a ha
  simp only [List.mem_flatMap, List.mem_map, List.mem_range] at ha
  obtain ⟨y, -, x, -, rfl⟩ := ha
  exact hf y x

/-! ## C2 -/

/-- C2 counterexample: when `max_error = 0` (a perfectly reconstructed block) the
multiplier `qf_mul` equals `0`, which is not in the half-open interval (0, 1];
multiplying a quant cell by it zeroes the cell. -/
theorem C2_qfMul_zero_cex : qfMul 0 = 0 ∧ ¬ (0 < qfMul 0) := by
  constructor
  · norm_num [qfMul]
  · norm_num [qfMul]

/-- C2 (amended): for nonnegative `max_error`, `qf_mul ∈ [1, ∞)` when
`max_error > 0.5`; `qf_mul ∈ [0, 1]` when `max_error ≤ 0.5`, and strictly
positive there only when `max_error > 0`; consequently a positive quant cell
never decreases when `max_error ≥ 0.5`. -/
theorem C2_qfMul_bounds (e : ℝ) (he : 0 ≤ e) :
    (e > 0.5 → 1 ≤ qfMul e) ∧
    (e ≤ 0.5 → 0 ≤ qfMul e ∧ qfMul e ≤ 1 ∧ (0 < e → 0 < qfMul e)) ∧
    (∀ q : ℝ, 0 < q → 0.5 ≤ e → q ≤ q * qfMul e) := by
  refine ⟨?_, ?_, ?_⟩
  · intro h
    rw [qfMul, if_neg (by linarith)]
    split <;> linarith
  · intro h
    rw [qfMul]
    split
    · exact ⟨by linarith, by linarith, fun h0 => by linarith⟩
    · split
      · rename_i hgt
        exact absurd hgt (by intro hc; linarith)
      · exact ⟨by norm_num, le_refl 1, fun _ => by norm_num⟩
  · intro q hq he2
    have h1 : 1 ≤ qfMul e := by
      rw [qfMul, if_neg (by linarith)]
      split <;> linarith
    nlinarith

theorem C2_qfMul_bounds_witness : 1 ≤ qfMul 1 :=
  (C2_qfMul_bounds 1 (by norm_num)).1 (by norm_num)

/-! ## C10 -/

/-- C10: `AdjustQuantVal` never raises a value above the ceiling: for `q > 0`
and `quant_max > 0`, if `q ≥ 0.999 * quant_max` it returns false leaving `q`
unchanged, and otherwise (for `d ≥ 0`, `factor ≥ 0`) it returns true and the
updated value satisfies `0 <` value `≤ quant_max`. -/
theorem C10_AdjustQuantVal_ceiling (q d factor quant_max : ℝ)
    (hq : 0 < q) (hm : 0 < quant_max) :
    (q ≥ 0.999 * quant_max → AdjustQuantVal q d factor quant_max = (false, q)) ∧
    (q < 0.999 * quant_max → 0 ≤ d → 0 ≤ factor →
      (AdjustQuantVal q d factor quant_max).1 = true ∧
      0 < (AdjustQuantVal q d factor quant_max).2 ∧
      (AdjustQuantVal q d factor quant_max).2 ≤ quant_max) := by
  constructor
  · intro h
    rw [AdjustQuantVal, if_pos h]
  · intro h hd hf
    rw [AdjustQuantVal, if_neg (by push_neg; exact h)]
    refine ⟨rfl, ?_, ?_⟩
    · have hmax : 0 < max (1 / quant_max) (1 / q - factor / (d + 1)) :=
        lt_of_lt_of_le (by positivity) (le_max_left _ _)
      positivity
    · have hmaxpos : 0 < max (1 / quant_max) (1 / q - factor / (d + 1)) :=
        lt_of_lt_of_le (by positivity) (le_max_left _ _)
      rw [div_le_iff₀ hmaxpos]
      calc (1 : ℝ) = quant_max * (1 / quant_max) := by field_simp
      _ ≤ quant_max * max (1 / quant_max) (1 / q - factor / (d + 1)) :=
          mul_le_mul_of_nonneg_left (le_max_left _ _) (le_of_lt hm)

theorem C10_AdjustQuantVal_ceiling_witness :
    AdjustQuantVal 2 0 0 2 = (false, 2) ∧
    (AdjustQuantVal 1 0 0 2).1 = true ∧ 0 < (AdjustQuantVal 1 0 0 2).2 ∧
      (AdjustQuantVal 1 0 0 2).2 ≤ 2 := by
  refine ⟨(C10_AdjustQuantVal_ceiling 2 0 0 2 (by norm_num) (by norm_num)).1 (by norm_num), ?_⟩
  exact (C10_AdjustQuantVal_ceiling 1 0 0 2 (by norm_num) (by norm_num)).2
    (by norm_num) (by norm_num) (by norm_num)

/-! ## C8 -/

/-- C8: `InitialQuantDC(t)` is at most 50 for every positive target, and is
monotonically non-increasing in the target. -/
theorem C8_InitialQuantDC_le_50_antitone (t1 t2 : ℝ) (h1 : 0 < t1) (h12 : t1 ≤ t2) :
    InitialQuantDC t1 ≤ 50 ∧ InitialQuantDC t2 ≤ InitialQuantDC t1 := by
  constructor
  · exact min_le_right _ _
  · rw [InitialQuantDC, InitialQuantDC]
    have hr1 : (0 : ℝ) < ((1 / 2.9) * t1) ^ kDcQuantPow :=
      Real.rpow_pos_of_pos (by positivity) _
    have hbt1 : (0 : ℝ) < min t1 (2.9 * ((1 / 2.9) * t1) ^ kDcQuantPow) :=
      lt_min h1 (by positivity)
    have hmono : min t1 (2.9 * ((1 / 2.9) * t1) ^ kDcQuantPow) ≤
        min t2 (2.9 * ((1 / 2.9) * t2) ^ kDcQuantPow) := by
      refine min_le_min h12 ?_
      have := Real.rpow_le_rpow (x := (1 / 2.9) * t1) (y := (1 / 2.9) * t2)
        (z := kDcQuantPow) (by positivity) (by linarith) (by rw [kDcQuantPow]; norm_num)
      nlinarith
    refine min_le_min ?_ (le_refl 50)
    have hq : (0 : ℝ) ≤ kDcQuant := by rw [kDcQuant]; norm_num
    exact div_le_div_of_nonneg_left hq hbt1 hmono

theorem C8_InitialQuantDC_le_50_antitone_witness :
    InitialQuantDC 1 ≤ 50 ∧ InitialQuantDC 2 ≤ InitialQuantDC 1 :=
  C8_InitialQuantDC_le_50_antitone 1 2 (by norm_num) (by norm_num)

/-! ## C3 -/

/-- C3: for every strictly positive initial quant field, the search-range setup
of FindBestQuantization gives `qf_higher / qf_lower < 253`, so the abort-style
assertion on that precondition is unreachable. -/
theorem C3_qf_setup_assert_unreachable (w h : ℕ) (f : ℕ → ℕ → ℝ)
    (hf : ∀ y x, 0 < f y x) :
    qfHigher (imageMin w h f) (imageMax w h f) /
      qfLower (imageMin w h f) (imageMax w h f) < 253 := by
  have ha : 0 < imageMin w h f := imageMin_pos hf
  have hab : imageMin w h f ≤ imageMax w h f := foldl_min_le_max
  set a := imageMin w h f
  set b := imageMax w h f
  have hb : 0 < b := lt_of_lt_of_le ha hab
  have hba : 0 < b / a := by positivity
  have hdev : 0 < qfMaxDeviationLow a b := by
    rw [qfMaxDeviationLow]
    exact Real.sqrt_pos.mpr (by positivity)
  have hdev2 : qfMaxDeviationLow a b * qfMaxDeviationLow a b = 250 / (b / a) := by
    rw [qfMaxDeviationLow]
    exact Real.mul_self_sqrt (by positivity)
  have hasym : 0 < qfAsymmetry a b := by
    rw [qfAsymmetry]
    split
    · exact hdev
    · norm_num
  have hkey : qfHigher a b / qfLower a b = (b / a) * (250 / (b / a)) := by
    rw [qfHigher, qfLower, ← hdev2]
    field_simp
    ring
  rw [hkey, mul_div_cancel₀ _ (ne_of_gt hba)]
  norm_num

theorem C3_qf_setup_assert_unreachable_witness :
    qfHigher (imageMin 1 1 fun _ _ => 1) (imageMax 1 1 fun _ _ => 1) /
      qfLower (imageMin 1 1 fun _ _ => 1) (imageMax 1 1 fun _ _ => 1) < 253 :=
  C3_qf_setup_assert_unreachable 1 1 (fun _ _ => 1) (fun _ _ => by norm_num)

/-! ## FindBestQuantization: iteration exponent and per-block update

`double kPow[8] = {0.2, 0.2, 0.0, 0.0, 0.0, 0.0, 0.0, 0.0};`
`double kPowMod[8] = {0.0, ...};`
`cur_pow = kPow[i] + (butteraugli_target - 1.0) * kPowMod[i]` for `i < 7`,
clamped below at 0, and 0 for `i ≥ 7`. -/

noncomputable section

def kPowTable : List ℝ := [0.2, 0.2, 0.0, 0.0, 0.0, 0.0, 0.0, 0.0]

def kPowModTable : List ℝ := [0.0, 0.0, 0.0, 0.0, 0.0, 0.0, 0.0, 0.0]

def curPow (i : ℕ) (butteraugli_target : ℝ) : ℝ :=
  if i < 7 then
    let c := kPowTable.getD i 0 + (butteraugli_target - 1) * kPowModTable.getD i 0
    if c < 0 then 0 else c
  else 0

/-- The `diff > 1` arm shared by both branches of the update loop:
`old = row_q[x]; row_q[x] *= diff;` with the rounded-quant stagnation bump. -/
def updateGrow (q diff igs scale : ℝ) : ℝ :=
  if (⌊q * igs + 0.5⌋ : ℤ) = ⌊(q * diff) * igs + 0.5⌋ then q + scale else q * diff

/-- Value of `row_q[x]` after the branch on `cur_pow` but before the clamps. -/
def updateQ1 (cur_pow butteraugli_target dist q igs scale : ℝ) : ℝ :=
  if cur_pow = 0 then
    if dist / butteraugli_target > 1 then
      updateGrow q (dist / butteraugli_target) igs scale
    else q
  else
    if dist / butteraugli_target ≤ 1 then q * (dist / butteraugli_target) ^ cur_pow
    else updateGrow q (dist / butteraugli_target) igs scale

/-- Source line `if (row_q[x] > qf_higher) row_q[x] = qf_higher;` -/
def clampHigher (qf_higher v : ℝ) : ℝ := if v > qf_higher then qf_higher else v

/-- Source line `if (row_q[x] < qf_lower) row_q[x] = qf_lower;` -/
def clampLower (qf_lower v : ℝ) : ℝ := if v < qf_lower then qf_lower else v

/-- One cell of the quant-field update loop of FindBestQuantization: value of
`row_q[x]` after the body, from `cur_pow`, the target, `row_dist[x]`, the old
`row_q[x]`, `quantizer.InvGlobalScale()`, `quantizer.Scale()` and the clamps. -/
def updateBlockQ (cur_pow butteraugli_target dist q igs scale qf_lower qf_higher : ℝ) : ℝ :=
  clampLower qf_lower
    (clampHigher qf_higher (updateQ1 cur_pow butteraugli_target dist q igs scale))

end

/-! ## C1 -/

/-- C1 counterexample: the `kPow` table is not all zeros (`kPow[0] = 0.2`), so at
iteration 0 with `butteraugli_target = 1` the exponent `cur_pow` is `0.2`, not 0,
and a block with `tile_distmap/butteraugli_target = 1/32 ≤ 1` is NOT left
unchanged: its quant value 1 is scaled to `(1/32)^(1/5) = 1/2`. -/
theorem C1_kPow_cex :
    curPow 0 1 ≠ 0 ∧
    updateBlockQ (curPow 0 1) 1 (1 / 32) 1 1 1 0 100 = 1 / 2 ∧
    updateBlockQ (curPow 0 1) 1 (1 / 32) 1 1 1 0 100 ≠ 1 := by
  have hcp : curPow 0 1 = 0.2 := by
    rw [curPow]
    norm_num [kPowTable, kPowModTable]
  have hpow : ((1 / 32 : ℝ) / 1) ^ (curPow 0 1) = 1 / 2 := by
    rw [hcp]
    have hb : (1 / 32 : ℝ) / 1 = ((1 / 2 : ℝ)) ^ ((5 : ℕ) : ℝ) := by
      rw [Real.rpow_natCast]
      norm_num
    rw [hb, ← Real.rpow_mul (by norm_num)]
    norm_num
  have hupd : updateBlockQ (curPow 0 1) 1 (1 / 32) 1 1 1 0 100 = 1 / 2 := by
    rw [updateBlockQ, updateQ1]
    rw [if_neg (by rw [hcp]; norm_num), if_pos (by norm_num), one_mul, hpow]
    rw [clampHigher, if_neg (by norm_num), clampLower, if_neg (by norm_num)]
  exact ⟨by rw [hcp]; norm_num, hupd, by rw [hupd]; norm_num⟩

/-- C1 (amended): the `kPow` table is zero only from index 2 on (entries 0 and 1
are 0.2).  For every iteration `i ≥ 2` and every butteraugli target, `cur_pow`
is 0, and the per-block update leaves a block with
`tile_distmap/butteraugli_target ≤ 1` unchanged provided its value lies in the
clamp interval. -/
theorem C1_kPow_amended (i : ℕ) (t dist q igs scale lo hi : ℝ)
    (hi2 : 2 ≤ i) (hd : dist / t ≤ 1) (hlo : lo ≤ q) (hhi : q ≤ hi) :
    curPow i t = 0 ∧ updateBlockQ (curPow i t) t dist q igs scale lo hi = q := by
  have hcp : curPow i t = 0 := by
    rw [curPow]
    split
    · rename_i h7
      have h1 : kPowTable.getD i 0 = 0 := by
        interval_cases i <;> norm_num [kPowTable]
      have h2 : kPowModTable.getD i 0 = 0 := by
        interval_cases i <;> norm_num [kPowModTable]
      rw [h1, h2]
      norm_num
    · rfl
  refine ⟨hcp, ?_⟩
  rw [updateBlockQ, hcp, updateQ1]
  rw [if_pos rfl, if_neg (by push_neg; exact hd)]
  rw [clampHigher, if_neg (by push_neg; exact hhi), clampLower,
    if_neg (by push_neg; exact hlo)]

theorem C1_kPow_amended_witness :
    curPow 2 1 = 0 ∧ updateBlockQ (curPow 2 1) 1 0 1 1 1 0 2 = 1 :=
  C1_kPow_amended 2 1 0 1 1 1 0 2 (by norm_num) (by norm_num) (by norm_num) (by norm_num)

/-! ## DiffPrecompute

Per-pixel local-difference map on the Y plane `P`, gamma matched and clamped,
padded to multiples of the block dimension.  The SIMD loop and the scalar loop
of the source compute the same arithmetic expression, so both are modelled by
the single interior formula. -/

noncomputable section

/-- Row index used as `row_in2` (the `y2` neighbour). -/
def y2Idx (ysize y : ℕ) : ℕ :=
  if y + 1 < ysize then y + 1 else if 0 < y then y - 1 else y

/-- Row index used as `row_in1` (the `y1` neighbour). -/
def y1Idx (ysize y : ℕ) : ℕ :=
  if y = 0 ∧ 2 ≤ ysize then y + 1 else if 0 < y then y - 1 else y

/-- Non-inverted `RatioOfDerivativesOfCubicRootToSimpleGamma`, i.e. `den/num`
with negative input clamped to zero. -/
def RatioOfDerivatives (v : ℝ) : ℝ :=
  (kLog2 * kSGmul * (if v < 0 then 0 else v) *
      ((if v < 0 then 0 else v) * (if v < 0 then 0 else v)) + kSGVOffset * kLog2) /
    (kSGRetMul * 3 * kSGmul * ((if v < 0 then 0 else v) * (if v < 0 then 0 else v)))

/-- The six-term neighbourhood difference of the first pass. -/
def pixDiff (P : ℕ → ℕ → ℝ) (y y1 y2 x x1 x2 : ℕ) : ℝ :=
  mul0 * (|P y x - P y x2| + |P y x - P y2 x| + |P y x - P y x1| +
    |P y x - P y1 x| + 3 * (|P y2 x - P y1 x| + |P y x1 - P y x2|))

/-- Index written by the last-pixel block of a row: `xsize - 1` when
`xsize ≥ 2`, and 1 when `xsize ≤ 1` (the loop skeleton always advances past
index 0 first). -/
def lastIdx (xsize : ℕ) : ℕ := max 1 (xsize - 1)

/-- Value stored by the first pass of DiffPrecompute at column `x` of row `y`
(first-pixel, interior and last-pixel cases). -/
def firstPassAt (P : ℕ → ℕ → ℝ) (xsize ysize : ℕ) (cutoff : ℝ) (y x : ℕ) : ℝ :=
  if x = 0 then
    min cutoff
      (pixDiff P y (y1Idx ysize y) (y2Idx ysize y) 0 (if xsize < 1 then 0 else 1)
          (if xsize < 1 then 0 else 1) *
        RatioOfDerivatives (P y 0 + matchGammaOffset))
  else if x + 1 < xsize then
    min cutoff
      (pixDiff P y (y1Idx ysize y) (y2Idx ysize y) x (x - 1) (x + 1) *
        RatioOfDerivatives (P y x + matchGammaOffset))
  else
    min cutoff
      (7 * mul0 * |P y x - P (y2Idx ysize y) x| *
        RatioOfDerivatives (P y x + matchGammaOffset))

/-- Mean of the last valid `min 3 xsize` cells of a row (the right-padding
fill value). -/
def rowLastval (xsize : ℕ) (row : ℕ → ℝ) : ℝ :=
  if 3 ≤ xsize then (row (xsize - 1) + row (xsize - 3) + row (xsize - 2)) * (1 / 3)
  else if 2 ≤ xsize then (row (xsize - 1) + row (xsize - 2)) * (1 / 2)
  else row (xsize - 1)

/-- A full row of `padded_diff` after the per-row task (values plus right
padding). -/
def rowAfterPad (P : ℕ → ℕ → ℝ) (xsize ysize : ℕ) (cutoff : ℝ) (y x : ℕ) : ℝ :=
  if x ≤ lastIdx xsize then firstPassAt P xsize ysize cutoff y x
  else rowLastval xsize (firstPassAt P xsize ysize cutoff y)

/-- Value written by the last-row fixup at interior column `x`. -/
def lastRowFixVal (P : ℕ → ℕ → ℝ) (ysize : ℕ) (cutoff : ℝ) (x : ℕ) : ℝ :=
  min cutoff
    (7 * mul0 * |P (ysize - 1) x - P (ysize - 1) (x + 1)| *
      RatioOfDerivatives (P (ysize - 1) x + matchGammaOffset))

/-- The last row of `padded_diff` after the last-row fixup.  The fixup
overwrites columns `x` with `x + 1 < xsize` and copies the left neighbour into
column `xsize - 1`; it does NOT touch the right-padding columns, which keep
their first-pass fill. -/
def lastRowFixed (P : ℕ → ℕ → ℝ) (xsize ysize : ℕ) (cutoff : ℝ) (x : ℕ) : ℝ :=
  if x + 1 < xsize then lastRowFixVal P ysize cutoff x
  else if x = xsize - 1 ∧ 1 ≤ x then lastRowFixVal P ysize cutoff (x - 1)
  else rowAfterPad P xsize ysize cutoff (ysize - 1) x

/-- Row `y < ysize` of `padded_diff` after both passes. -/
def finalRow (P : ℕ → ℕ → ℝ) (xsize ysize : ℕ) (cutoff : ℝ) (y x : ℕ) : ℝ :=
  if y + 1 = ysize then lastRowFixed P xsize ysize cutoff x
  else rowAfterPad P xsize ysize cutoff y x

/-- Bottom-padding fill value for column `x` (mean of the last valid
`min 3 ysize` cells of the column, taken after the last-row fixup). -/
def colLastval (P : ℕ → ℕ → ℝ) (xsize ysize : ℕ) (cutoff : ℝ) (x : ℕ) : ℝ :=
  if 3 ≤ ysize then
    (finalRow P xsize ysize cutoff (ysize - 1) x +
        finalRow P xsize ysize cutoff (ysize - 2) x +
        finalRow P xsize ysize cutoff (ysize - 3) x) * (1 / 3)
  else if 2 ≤ ysize then
    (finalRow P xsize ysize cutoff (ysize - 1) x +
        finalRow P xsize ysize cutoff (ysize - 2) x) * (1 / 2)
  else finalRow P xsize ysize cutoff (ysize - 1) x

/-- The image returned by DiffPrecompute (defined at every index; the real
image only has the padded extent). -/
def DiffPrecompute (P : ℕ → ℕ → ℝ) (xsize ysize : ℕ) (cutoff : ℝ) (y x : ℕ) : ℝ :=
  if y < ysize then finalRow P xsize ysize cutoff y x
  else colLastval P xsize ysize cutoff x

end

theorem firstPassAt_le_cutoff (P : ℕ → ℕ → ℝ) (xsize ysize : ℕ) (cutoff : ℝ)
    (y x : ℕ) : firstPassAt P xsize ysize cutoff y x ≤ cutoff := by
  rw [firstPassAt]
  split
  · exact min_le_left _ _
  · split
    · exact min_le_left _ _
    · exact min_le_left _ _

theorem rowAfterPad_le_cutoff (P : ℕ → ℕ → ℝ) (xsize ysize : ℕ) (cutoff : ℝ)
    (y x : ℕ) : rowAfterPad P xsize ysize cutoff y x ≤ cutoff := by
  rw [rowAfterPad]
  split
  · exact firstPassAt_le_cutoff P xsize ysize cutoff y x
  · rw [rowLastval]
    have h1 := firstPassAt_le_cutoff P xsize ysize cutoff y (xsize - 1)
    have h2 := firstPassAt_le_cutoff P xsize ysize cutoff y (xsize - 2)
    have h3 := firstPassAt_le_cutoff P xsize ysize cutoff y (xsize - 3)
    split
    · linarith
    · split
      · linarith
      · exact h1

theorem finalRow_le_cutoff (P : ℕ → ℕ → ℝ) (xsize ysize : ℕ) (cutoff : ℝ)
    (y x : ℕ) : finalRow P xsize ysize cutoff y x ≤ cutoff := by
  rw [finalRow]
  split
  · rw [lastRowFixed]
    split
    · exact min_le_left _ _
    · split
      · exact min_le_left _ _
      · exact rowAfterPad_le_cutoff P xsize ysize cutoff (ysize - 1) x
  · exact rowAfterPad_le_cutoff P xsize ysize cutoff y x

/-! ## C7 -/

/-- C7: every cell of the image returned by DiffPrecompute — interior,
boundary and padding cells alike — is at most the cutoff. -/
theorem C7_DiffPrecompute_le_cutoff (P : ℕ → ℕ → ℝ) (xsize ysize : ℕ)
    (cutoff : ℝ) (y x : ℕ) : DiffPrecompute P xsize ysize cutoff y x ≤ cutoff := by
  rw [DiffPrecompute]
  split
  · exact finalRow_le_cutoff P xsize ysize cutoff y x
  · rw [colLastval]
    have h1 := finalRow_le_cutoff P xsize ysize cutoff (ysize - 1) x
    have h2 := finalRow_le_cutoff P xsize ysize cutoff (ysize - 2) x
    have h3 := finalRow_le_cutoff P xsize ysize cutoff (ysize - 3) x
    split
    · linarith
    · split
      · linarith
      · exact h1

/-! ## C4 -/

theorem rowLastval_congr (n : ℕ) (r1 r2 : ℕ → ℝ)
    (h : ∀ j, j ≤ n - 1 → r1 j = r2 j) : rowLastval n r1 = rowLastval n r2 := by
  rw [rowLastval, rowLastval]
  split
  · rw [h (n - 1) (by omega), h (n - 2) (by omega), h (n - 3) (by omega)]
  · split
    · rw [h (n - 1) (by omega), h (n - 2) (by omega)]
    · rw [h (n - 1) (by omega)]

/-- Concrete 2-by-2 input for the last-row padding counterexample: the top row
holds a huge value, the bottom row zero. -/
def c4Image : ℕ → ℕ → ℝ := fun y _ => if y = 0 then 1000000000 else 0

theorem ratioOfDerivatives_ge :
    (0.9 : ℝ) ≤ RatioOfDerivatives (0 + matchGammaOffset) := by
  rw [RatioOfDerivatives]
  norm_num [matchGammaOffset, kLog2, kSGmul, kSGRetMul, kSGmul2, kSGVOffset]

theorem c4_firstPass_row1_col0 : firstPassAt c4Image 2 2 1 1 0 = 1 := by
  have hR := ratioOfDerivatives_ge
  have p10 : c4Image 1 0 = 0 := by norm_num [c4Image]
  have p11 : c4Image 1 1 = 0 := by norm_num [c4Image]
  have p00 : c4Image 0 0 = 1000000000 := by norm_num [c4Image]
  have habs : |(0 : ℝ) - 1000000000| = 1000000000 := by
    rw [abs_of_nonpos (by norm_num)]
    norm_num
  rw [firstPassAt, if_pos rfl]
  have hy1 : y1Idx 2 1 = 0 := by rw [y1Idx]; norm_num
  have hy2 : y2Idx 2 1 = 0 := by rw [y2Idx]; norm_num
  rw [hy1, hy2, if_neg (by norm_num), pixDiff, p10, p11, p00, habs]
  simp only [sub_self, abs_zero, sub_zero, add_zero, zero_add, mul_zero]
  refine min_eq_left ?_
  rw [mul0]
  have hfact := mul_le_mul_of_nonneg_left hR
    (show (0 : ℝ) ≤ 0.030220460298316064 * (1000000000 + 1000000000) by norm_num)
  simp only [zero_add] at hfact
  nlinarith [hfact]

theorem c4_firstPass_row1_col1 : firstPassAt c4Image 2 2 1 1 1 = 1 := by
  have hR := ratioOfDerivatives_ge
  rw [firstPassAt, if_neg (by norm_num), if_neg (by norm_num)]
  have hy2 : y2Idx 2 1 = 0 := by rw [y2Idx]; norm_num
  rw [hy2]
  have h1 : c4Image 1 1 = 0 := by rw [c4Image]; norm_num
  have h2 : c4Image 0 1 = 1000000000 := by rw [c4Image]; norm_num
  rw [h1, h2]
  have habs : |(0 : ℝ) - 1000000000| = 1000000000 := by
    rw [abs_of_nonpos (by norm_num)]
    norm_num
  rw [habs]
  refine min_eq_left ?_
  rw [mul0] at *
  nlinarith [hR]

theorem c4_lastRowFix_zero : lastRowFixVal c4Image 2 1 0 = 0 := by
  rw [lastRowFixVal]
  have h1 : c4Image (2 - 1) 0 = 0 := by rw [c4Image]; norm_num
  have h2 : c4Image (2 - 1) (0 + 1) = 0 := by rw [c4Image]; norm_num
  rw [h1, h2]
  norm_num

/-- C4 counterexample: on a 2-by-2 image whose top row is huge and bottom row
zero, with cutoff 1, the right-padding cell of the last row keeps the
first-pass mean 1, while the mean of the last 2 valid cells of the final
(fixed-up) last row is 0 — so padding does not equal the mean of the final
values on the last row. -/
theorem C4_lastrow_padding_cex :
    DiffPrecompute c4Image 2 2 1 1 2 = 1 ∧
    rowLastval 2 (fun j => DiffPrecompute c4Image 2 2 1 1 j) = 0 ∧
    DiffPrecompute c4Image 2 2 1 1 2 ≠
      rowLastval 2 (fun j => DiffPrecompute c4Image 2 2 1 1 j) := by
  have hD0 : DiffPrecompute c4Image 2 2 1 1 0 = 0 := by
    rw [DiffPrecompute, if_pos (by norm_num), finalRow, if_pos (by norm_num),
      lastRowFixed, if_pos (by norm_num)]
    exact c4_lastRowFix_zero
  have hD1 : DiffPrecompute c4Image 2 2 1 1 1 = 0 := by
    rw [DiffPrecompute, if_pos (by norm_num), finalRow, if_pos (by norm_num),
      lastRowFixed, if_neg (by norm_num), if_pos (by norm_num)]
    exact c4_lastRowFix_zero
  have hpad : DiffPrecompute c4Image 2 2 1 1 2 = 1 := by
    rw [DiffPrecompute, if_pos (by norm_num), finalRow, if_pos (by norm_num),
      lastRowFixed, if_neg (by norm_num), if_neg (by norm_num),
      rowAfterPad, if_neg (by rw [lastIdx]; norm_num), rowLastval,
      if_neg (by norm_num), if_pos (by norm_num)]
    norm_num [c4_firstPass_row1_col0, c4_firstPass_row1_col1]
  have hmean : rowLastval 2 (fun j => DiffPrecompute c4Image 2 2 1 1 j) = 0 := by
    rw [rowLastval, if_neg (by norm_num), if_pos (by norm_num)]
    norm_num [hD0, hD1]
  exact ⟨hpad, hmean, by rw [hpad, hmean]; norm_num⟩

/-- C4 (amended): among the right-padding cells (column index at least
`xsize`) of a row before the last, those at column at least 2 hold the mean of
the last `min 3 xsize` cells of that row carrying their final values; on the
LAST row those cells hold the mean of the last cells as computed by the first
pass — the last-row fixup does not update them.  Exception: when `xsize = 1`,
padding column 1 of every row is written by the last-pixel block of the loop
skeleton and holds `min(cutoff, 7·mul0·|P(y,1) − P(y2,1)|·ratio)` — a formula
value read from out-of-frame data, not a mean.  Each bottom-padding cell holds
the mean of the last `min 3 ysize` cells of its column carrying their final
values. -/
theorem C4_padding_amended (P : ℕ → ℕ → ℝ) (xsize ysize : ℕ) (cutoff : ℝ)
    (hx : 1 ≤ xsize) (hy : 1 ≤ ysize) :
    (∀ y x, y + 1 < ysize → xsize ≤ x → 2 ≤ xsize ∨ 2 ≤ x →
      DiffPrecompute P xsize ysize cutoff y x =
        rowLastval xsize (fun j => DiffPrecompute P xsize ysize cutoff y j)) ∧
    (∀ x, xsize ≤ x → 2 ≤ xsize ∨ 2 ≤ x →
      DiffPrecompute P xsize ysize cutoff (ysize - 1) x =
        rowLastval xsize (firstPassAt P xsize ysize cutoff (ysize - 1))) ∧
    (∀ y, y < ysize → xsize = 1 →
      DiffPrecompute P xsize ysize cutoff y 1 =
        min cutoff (7 * mul0 * |P y 1 - P (y2Idx ysize y) 1| *
          RatioOfDerivatives (P y 1 + matchGammaOffset))) ∧
    (∀ y x, ysize ≤ y →
      DiffPrecompute P xsize ysize cutoff y x =
        if 3 ≤ ysize then
          (DiffPrecompute P xsize ysize cutoff (ysize - 1) x +
              DiffPrecompute P xsize ysize cutoff (ysize - 2) x +
              DiffPrecompute P xsize ysize cutoff (ysize - 3) x) * (1 / 3)
        else if 2 ≤ ysize then
          (DiffPrecompute P xsize ysize cutoff (ysize - 1) x +
              DiffPrecompute P xsize ysize cutoff (ysize - 2) x) * (1 / 2)
        else DiffPrecompute P xsize ysize cutoff (ysize - 1) x) := by
  have hrow : ∀ z x, z < ysize →
      DiffPrecompute P xsize ysize cutoff z x = finalRow P xsize ysize cutoff z x := by
    intro z x hz
    rw [DiffPrecompute, if_pos hz]
  refine ⟨?_, ?_, ?_, ?_⟩
  · intro y x hyy hxx hor
    rw [DiffPrecompute, if_pos (by omega), finalRow, if_neg (by omega),
      rowAfterPad, if_neg (by rw [lastIdx]; omega)]
    refine rowLastval_congr xsize _ _ ?_
    intro j hj
    rw [DiffPrecompute, if_pos (by omega), finalRow, if_neg (by omega),
      rowAfterPad, if_pos (by rw [lastIdx]; omega)]
  · intro x hxx hor
    rw [DiffPrecompute, if_pos (by omega), finalRow, if_pos (by omega),
      lastRowFixed, if_neg (by omega), if_neg (by omega),
      rowAfterPad, if_neg (by rw [lastIdx]; omega)]
  · intro y hylt h1
    subst h1
    by_cases hlast : y + 1 = ysize
    · have hyeq : ysize - 1 = y := by omega
      rw [DiffPrecompute, if_pos hylt, finalRow, if_pos hlast,
        lastRowFixed, if_neg (by omega), if_neg (by omega),
        rowAfterPad, if_pos (by rw [lastIdx]; omega), hyeq,
        firstPassAt, if_neg (by omega), if_neg (by omega)]
    · rw [DiffPrecompute, if_pos hylt, finalRow, if_neg hlast,
        rowAfterPad, if_pos (by rw [lastIdx]; omega),
        firstPassAt, if_neg (by omega), if_neg (by omega)]
  · intro y x hyy
    rw [DiffPrecompute, if_neg (by omega), colLastval]
    by_cases h3 : 3 ≤ ysize
    · rw [if_pos h3, if_pos h3, hrow (ysize - 1) x (by omega),
        hrow (ysize - 2) x (by omega), hrow (ysize - 3) x (by omega)]
    · by_cases h2 : 2 ≤ ysize
      · rw [if_neg h3, if_pos h2, if_neg h3, if_pos h2,
          hrow (ysize - 1) x (by omega), hrow (ysize - 2) x (by omega)]
      · rw [if_neg h3, if_neg h2, if_neg h3, if_neg h2,
          hrow (ysize - 1) x (by omega)]

theorem C4_padding_amended_witness :
    DiffPrecompute (fun _ _ => 0) 1 1 0 (1 - 1) 5 =
      rowLastval 1 (firstPassAt (fun _ _ => 0) 1 1 0 (1 - 1)) :=
  (C4_padding_amended (fun _ _ => 0) 1 1 0 (le_refl 1) (le_refl 1)).2.1 5
    (by norm_num) (Or.inr (by norm_num))

/-! ## AdjustQuantField

`AcStrategyImage` is modelled as a function from block coordinates to the
strategy record; the scan of the source is the row-major fold below. -/

/-- The part of an `AcStrategy` entry the estimator reads. -/
structure AcStrategy where
  isFirstBlock : Bool
  coveredBlocksX : ℕ
  coveredBlocksY : ℕ

/-- The row-major scan order `for y { for x { ... } }`. -/
def rowMajorIndices (w h : ℕ) : List (ℕ × ℕ) :=
  (List.range h).flatMap fun y => (List.range w).map fun x => (y, x)

/-- The nested loop order `for iy { for ix { ... } }` over a block. -/
def blockCells (cy cx : ℕ) : List (ℕ × ℕ) :=
  (List.range cy).flatMap fun iy => (List.range cx).map fun ix => (iy, ix)

/-- Source loop `float max = quant_row[x]; for iy for ix max = std::max(q[...], max);` -/
def blockMax (q : ℕ → ℕ → ℝ) (y x cy cx : ℕ) : ℝ :=
  (blockCells cy cx).foldl (fun m c => max (q (y + c.1) (x + c.2)) m) (q y x)

/-- Source loop `for iy for ix quant_row[x + ix + iy * stride] = max;` -/
def writeBlock (q : ℕ → ℕ → ℝ) (y x cy cx : ℕ) (v : ℝ) : ℕ → ℕ → ℝ :=
  fun y' x' => if y ≤ y' ∧ y' < y + cy ∧ x ≤ x' ∧ x' < x + cx then v else q y' x'

/-- Body of the scan at position `p`. -/
def adjustStep (acs : ℕ → ℕ → AcStrategy) (p : ℕ × ℕ) (q : ℕ → ℕ → ℝ) :
    ℕ → ℕ → ℝ :=
  if (acs p.1 p.2).isFirstBlock = true then
    writeBlock q p.1 p.2 (acs p.1 p.2).coveredBlocksY (acs p.1 p.2).coveredBlocksX
      (blockMax q p.1 p.2 (acs p.1 p.2).coveredBlocksY (acs p.1 p.2).coveredBlocksX)
  else q

/-- The full AdjustQuantField pass over a w-by-h quant field. -/
def AdjustQuantField (acs : ℕ → ℕ → AcStrategy) (w h : ℕ) (q : ℕ → ℕ → ℝ) :
    ℕ → ℕ → ℝ :=
  (rowMajorIndices w h).foldl (fun q p => adjustStep acs p q) q

/-- Cell `c` belongs to the block whose first-block corner is `p`. -/
def Covers (acs : ℕ → ℕ → AcStrategy) (p c : ℕ × ℕ) : Prop :=
  (acs p.1 p.2).isFirstBlock = true ∧
  p.1 ≤ c.1 ∧ c.1 < p.1 + (acs p.1 p.2).coveredBlocksY ∧
  p.2 ≤ c.2 ∧ c.2 < p.2 + (acs p.1 p.2).coveredBlocksX

/-- The invariants an `AcStrategyImage` maintains: first blocks are nonempty,
lie within bounds (the `JXL_ASSERT`s of the source), and the blocks of two
distinct first-block corners never overlap. -/
structure ValidStrategy (acs : ℕ → ℕ → AcStrategy) (w h : ℕ) : Prop where
  bounds : ∀ p : ℕ × ℕ, p.1 < h → p.2 < w → (acs p.1 p.2).isFirstBlock = true →
    0 < (acs p.1 p.2).coveredBlocksY ∧ 0 < (acs p.1 p.2).coveredBlocksX ∧
    p.1 + (acs p.1 p.2).coveredBlocksY ≤ h ∧ p.2 + (acs p.1 p.2).coveredBlocksX ≤ w
  unique : ∀ p q c : ℕ × ℕ, p.1 < h → p.2 < w → q.1 < h → q.2 < w →
    Covers acs p c → Covers acs q c → p = q

theorem mem_rowMajorIndices {w h : ℕ} {p : ℕ × ℕ} :
    p ∈ rowMajorIndices w h ↔ p.1 < h ∧ p.2 < w := by
  cases p with
  | mk a b =>
    simp only [rowMajorIndices, List.mem_flatMap, List.mem_map, List.mem_range]
    constructor
    · rintro ⟨y, hy, x, hx, he⟩
      cases he
      exact ⟨hy, hx⟩
    · rintro ⟨ha, hb⟩
      exact ⟨a, ha, b, hb, rfl⟩

theorem mem_blockCells {cy cx : ℕ} {c : ℕ × ℕ} :
    c ∈ blockCells cy cx ↔ c.1 < cy ∧ c.2 < cx := by
  cases c with
  | mk a b =>
    simp only [blockCells, List.mem_flatMap, List.mem_map, List.mem_range]
    constructor
    · rintro ⟨y, hy, x, hx, he⟩
      cases he
      exact ⟨hy, hx⟩
    · rintro ⟨ha, hb⟩
      exact ⟨a, ha, b, hb, rfl⟩

theorem foldl_amax_init_le {α : Type} (f : α → ℝ) (l : List α) (s : ℝ) :
    s ≤ l.foldl (fun m a => max (f a) m) s := by
  induction l generalizing s with
  | nil => simp
  | cons a t ih => exact le_trans (le_max_right _ _) (ih (max (f a) s))

theorem foldl_amax_le_of_mem {α : Type} (f : α → ℝ) (l : List α) :
    ∀ (s : ℝ) {a : α}, a ∈ l → f a ≤ l.foldl (fun m b => max (f b) m) s := by
  induction l with
  | nil => intro s a ha; cases ha
  | cons b t ih =>
    intro s a ha
    rcases List.mem_cons.mp ha with h | h
    · subst h
      exact le_trans (le_max_left _ _) (foldl_amax_init_le f t _)
    · exact ih _ h

theorem foldl_amax_cases {α : Type} (f : α → ℝ) (l : List α) (s : ℝ) :
    l.foldl (fun m a => max (f a) m) s = s ∨
      ∃ a ∈ l, l.foldl (fun m b => max (f b) m) s = f a := by
  induction l generalizing s with
  | nil => exact Or.inl rfl
  | cons b t ih =>
    rcases ih (max (f b) s) with h | ⟨a, ha, h⟩
    · rcases max_choice (f b) s with hm | hm
      · exact Or.inr ⟨b, by simp, by rw [List.foldl_cons, h, hm]⟩
      · exact Or.inl (by rw [List.foldl_cons, h, hm])
    · exact Or.inr ⟨a, by simp [ha], by rw [List.foldl_cons, h]⟩

theorem foldl_amax_congr {α : Type} (f g : α → ℝ) (l : List α) :
    ∀ (s t : ℝ), (∀ a ∈ l, f a = g a) → s = t →
    l.foldl (fun m a => max (f a) m) s = l.foldl (fun m a => max (g a) m) t := by
  induction l with
  | nil => intro s t _ hst; simpa
  | cons b u ih =>
    intro s t h hst
    rw [List.foldl_cons, List.foldl_cons]
    exact ih _ _ (fun a ha => h a (List.mem_cons_of_mem _ ha))
      (by rw [h b (List.mem_cons_self _ _), hst])

theorem foldl_amax_const {α : Type} (f : α → ℝ) (l : List α) (v : ℝ) :
    (∀ a ∈ l, f a = v) → l.foldl (fun m a => max (f a) m) v = v := by
  induction l with
  | nil => intro _; rfl
  | cons b t ih =>
    intro h
    rw [List.foldl_cons, h b (List.mem_cons_self _ _), max_self]
    exact ih fun a ha => h a (List.mem_cons_of_mem _ ha)

theorem le_blockMax (q : ℕ → ℕ → ℝ) (y x cy cx : ℕ) {a b : ℕ}
    (hy : y ≤ a) (ha : a < y + cy) (hx : x ≤ b) (hb : b < x + cx) :
    q a b ≤ blockMax q y x cy cx := by
  have hmem : ((a - y, b - x) : ℕ × ℕ) ∈ blockCells cy cx :=
    mem_blockCells.mpr ⟨by omega, by omega⟩
  have := foldl_amax_le_of_mem (fun c : ℕ × ℕ => q (y + c.1) (x + c.2))
    (blockCells cy cx) (q y x) hmem
  rw [blockMax]
  have hae : y + (a - y) = a := by omega
  have hbe : x + (b - x) = b := by omega
  simp only at this
  rw [hae, hbe] at this
  exact this

theorem blockMax_attained (q : ℕ → ℕ → ℝ) (y x cy cx : ℕ)
    (hcy : 0 < cy) (hcx : 0 < cx) :
    ∃ a b, y ≤ a ∧ a < y + cy ∧ x ≤ b ∧ b < x + cx ∧
      blockMax q y x cy cx = q a b := by
  rcases foldl_amax_cases (fun c : ℕ × ℕ => q (y + c.1) (x + c.2))
      (blockCells cy cx) (q y x) with h | ⟨c, hc, h⟩
  · exact ⟨y, x, le_refl y, by omega, le_refl x, by omega, h⟩
  · have hm := mem_blockCells.mp hc
    exact ⟨y + c.1, x + c.2, by omega, by omega, by omega, by omega, h⟩

theorem blockMax_congr (q q' : ℕ → ℕ → ℝ) (y x cy cx : ℕ)
    (h : ∀ a b, y ≤ a → a < y + cy → x ≤ b → b < x + cx → q a b = q' a b)
    (hc : q y x = q' y x) : blockMax q y x cy cx = blockMax q' y x cy cx := by
  rw [blockMax, blockMax]
  refine foldl_amax_congr _ _ _ _ _ ?_ hc
  intro c hcm
  have hm := mem_blockCells.mp hcm
  exact h (y + c.1) (x + c.2) (by omega) (by omega) (by omega) (by omega)

theorem blockMax_const (q : ℕ → ℕ → ℝ) (y x cy cx : ℕ) (v : ℝ)
    (h : ∀ a b, y ≤ a → a < y + cy → x ≤ b → b < x + cx → q a b = v)
    (hc : q y x = v) : blockMax q y x cy cx = v := by
  rw [blockMax]
  have he : (blockCells cy cx).foldl
      (fun m c => max (q (y + c.1) (x + c.2)) m) (q y x) =
      (blockCells cy cx).foldl (fun m c => max (q (y + c.1) (x + c.2)) m) v := by
    rw [hc]
  rw [he]
  refine foldl_amax_const _ _ _ ?_
  intro c hcm
  have hm := mem_blockCells.mp hcm
  exact h (y + c.1) (x + c.2) (by omega) (by omega) (by omega) (by omega)

/-- Invariant of the scan: after processing the positions in `P`, a cell
covered by an already-processed first block holds the original block
maximum, and every other cell still holds its original value. -/
def AdjustInv (acs : ℕ → ℕ → AcStrategy) (w h : ℕ) (q0 : ℕ → ℕ → ℝ)
    (P : List (ℕ × ℕ)) (q : ℕ → ℕ → ℝ) : Prop :=
  ∀ c : ℕ × ℕ,
    (∀ p : ℕ × ℕ, p.1 < h → p.2 < w → Covers acs p c →
      q c.1 c.2 =
        if p ∈ P then
          blockMax q0 p.1 p.2 (acs p.1 p.2).coveredBlocksY (acs p.1 p.2).coveredBlocksX
        else q0 c.1 c.2) ∧
    ((∀ p : ℕ × ℕ, p.1 < h → p.2 < w → ¬ Covers acs p c) → q c.1 c.2 = q0 c.1 c.2)

theorem adjustInv_nil (acs : ℕ → ℕ → AcStrategy) (w h : ℕ) (q0 : ℕ → ℕ → ℝ) :
    AdjustInv acs w h q0 [] q0 := by
  intro c
  constructor
  · intro p _ _ _
    rw [if_neg (List.not_mem_nil p)]
  · intro _
    rfl

theorem adjustStep_inv (acs : ℕ → ℕ → AcStrategy) (w h : ℕ) (q0 : ℕ → ℕ → ℝ)
    (hv : ValidStrategy acs w h) (P : List (ℕ × ℕ)) (q : ℕ → ℕ → ℝ) (n : ℕ × ℕ)
    (hn1 : n.1 < h) (hn2 : n.2 < w) (hq : AdjustInv acs w h q0 P q) :
    AdjustInv acs w h q0 (P ++ [n]) (adjustStep acs n q) := by
  by_cases hfirst : (acs n.1 n.2).isFirstBlock = true
  · obtain ⟨hcy, hcx, hyb, hxb⟩ := hv.bounds n hn1 hn2 hfirst
    have hself : ∀ a b : ℕ, n.1 ≤ a → a < n.1 + (acs n.1 n.2).coveredBlocksY →
        n.2 ≤ b → b < n.2 + (acs n.1 n.2).coveredBlocksX → Covers acs n (a, b) :=
      fun a b h1 h2 h3 h4 => ⟨hfirst, h1, h2, h3, h4⟩
    have hM : blockMax q n.1 n.2 (acs n.1 n.2).coveredBlocksY
        (acs n.1 n.2).coveredBlocksX =
        blockMax q0 n.1 n.2 (acs n.1 n.2).coveredBlocksY
          (acs n.1 n.2).coveredBlocksX := by
      by_cases hmem : n ∈ P
      · have hval : ∀ a b : ℕ, n.1 ≤ a → a < n.1 + (acs n.1 n.2).coveredBlocksY →
            n.2 ≤ b → b < n.2 + (acs n.1 n.2).coveredBlocksX →
            q a b = blockMax q0 n.1 n.2 (acs n.1 n.2).coveredBlocksY
              (acs n.1 n.2).coveredBlocksX := by
          intro a b h1 h2 h3 h4
          have := ((hq (a, b)).1 n hn1 hn2 (hself a b h1 h2 h3 h4))
          rwa [if_pos hmem] at this
        rw [blockMax_const q n.1 n.2 _ _ _ hval
          (hval n.1 n.2 (le_refl _) (by omega) (le_refl _) (by omega))]
      · have hval : ∀ a b : ℕ, n.1 ≤ a → a < n.1 + (acs n.1 n.2).coveredBlocksY →
            n.2 ≤ b → b < n.2 + (acs n.1 n.2).coveredBlocksX → q a b = q0 a b := by
          intro a b h1 h2 h3 h4
          have := ((hq (a, b)).1 n hn1 hn2 (hself a b h1 h2 h3 h4))
          rwa [if_neg hmem] at this
        exact blockMax_congr q q0 n.1 n.2 _ _ hval
          (hval n.1 n.2 (le_refl _) (by omega) (le_refl _) (by omega))
    intro c
    constructor
    · intro p hp1 hp2 hpc
      by_cases hcin : n.1 ≤ c.1 ∧ c.1 < n.1 + (acs n.1 n.2).coveredBlocksY ∧
          n.2 ≤ c.2 ∧ c.2 < n.2 + (acs n.1 n.2).coveredBlocksX
      · have hpn : p = n := by
          have hnc : Covers acs n c := ⟨hfirst, hcin.1, hcin.2.1, hcin.2.2.1, hcin.2.2.2⟩
          exact hv.unique p n c hp1 hp2 hn1 hn2 hpc hnc
        subst hpn
        rw [adjustStep, if_pos hfirst, writeBlock]
        rw [if_pos hcin, hM, if_pos (by simp)]
      · have hpn : p ≠ n := by
          intro he
          subst he
          exact hcin ⟨hpc.2.1, hpc.2.2.1, hpc.2.2.2.1, hpc.2.2.2.2⟩
        rw [adjustStep, if_pos hfirst, writeBlock]
        rw [if_neg hcin]
        have := (hq c).1 p hp1 hp2 hpc
        rw [this]
        by_cases hmem : p ∈ P
        · rw [if_pos hmem, if_pos (by simp [hmem])]
        · rw [if_neg hmem, if_neg (by simp [hmem, hpn])]
    · intro hnone
      rw [adjustStep, if_pos hfirst, writeBlock]
      rw [if_neg ?hreg]
      case hreg =>
        intro hcin
        exact hnone n hn1 hn2 ⟨hfirst, hcin.1, hcin.2.1, hcin.2.2.1, hcin.2.2.2⟩
      exact (hq c).2 hnone
  · intro c
    constructor
    · intro p hp1 hp2 hpc
      have hpn : p ≠ n := by
        intro he
        subst he
        exact hfirst hpc.1
      rw [adjustStep, if_neg hfirst]
      have := (hq c).1 p hp1 hp2 hpc
      rw [this]
      by_cases hmem : p ∈ P
      · rw [if_pos hmem, if_pos (by simp [hmem])]
      · rw [if_neg hmem, if_neg (by simp [hmem, hpn])]
    · intro hnone
      rw [adjustStep, if_neg hfirst]
      exact (hq c).2 hnone

theorem adjust_foldl_inv (acs : ℕ → ℕ → AcStrategy) (w h : ℕ) (q0 : ℕ → ℕ → ℝ)
    (hv : ValidStrategy acs w h) (L : List (ℕ × ℕ)) :
    (∀ n ∈ L, n.1 < h ∧ n.2 < w) →
    ∀ (P : List (ℕ × ℕ)) (q : ℕ → ℕ → ℝ), AdjustInv acs w h q0 P q →
    AdjustInv acs w h q0 (P ++ L)
      (L.foldl (fun q p => adjustStep acs p q) q) := by
  induction L with
  | nil =>
    intro _ P q hq
    simpa
  | cons n t ih =>
    intro hL P q hq
    have hn := hL n (List.mem_cons_self _ _)
    have h1 := adjustStep_inv acs w h q0 hv P q n hn.1 hn.2 hq
    have h2 := ih (fun m hm => hL m (List.mem_cons_of_mem _ hm)) (P ++ [n]) _ h1
    rw [List.append_assoc, List.singleton_append] at h2
    exact h2

/-- Characterization of AdjustQuantField on a valid strategy: a covered cell
holds the original block maximum of its covering first block, every other
cell is unchanged. -/
theorem adjustQuantField_char (acs : ℕ → ℕ → AcStrategy) (w h : ℕ)
    (q0 : ℕ → ℕ → ℝ) (hv : ValidStrategy acs w h) (c : ℕ × ℕ) :
    (∀ p : ℕ × ℕ, p.1 < h → p.2 < w → Covers acs p c →
      AdjustQuantField acs w h q0 c.1 c.2 =
        blockMax q0 p.1 p.2 (acs p.1 p.2).coveredBlocksY
          (acs p.1 p.2).coveredBlocksX) ∧
    ((∀ p : ℕ × ℕ, p.1 < h → p.2 < w → ¬ Covers acs p c) →
      AdjustQuantField acs w h q0 c.1 c.2 = q0 c.1 c.2) := by
  have hfold := adjust_foldl_inv acs w h q0 hv (rowMajorIndices w h)
    (fun n hn => mem_rowMajorIndices.mp hn) [] q0 (adjustInv_nil acs w h q0)
  rw [List.nil_append] at hfold
  constructor
  · intro p hp1 hp2 hpc
    have := (hfold c).1 p hp1 hp2 hpc
    rwa [if_pos (mem_rowMajorIndices.mpr ⟨hp1, hp2⟩)] at this
  · exact (hfold c).2

/-! ## C5 -/

/-- C5: after AdjustQuantField on a valid AC strategy, the covered cells of
every first block all hold one identical value, namely the maximum the covered
cells held before the call. -/
theorem C5_AdjustQuantField_block_max (acs : ℕ → ℕ → AcStrategy) (w h : ℕ)
    (q0 : ℕ → ℕ → ℝ) (hv : ValidStrategy acs w h) (p : ℕ × ℕ)
    (hp1 : p.1 < h) (hp2 : p.2 < w) (hf : (acs p.1 p.2).isFirstBlock = true) :
    (∀ c : ℕ × ℕ, Covers acs p c →
      AdjustQuantField acs w h q0 c.1 c.2 =
        blockMax q0 p.1 p.2 (acs p.1 p.2).coveredBlocksY
          (acs p.1 p.2).coveredBlocksX) ∧
    (∀ c c' : ℕ × ℕ, Covers acs p c → Covers acs p c' →
      AdjustQuantField acs w h q0 c.1 c.2 = AdjustQuantField acs w h q0 c'.1 c'.2) ∧
    (∀ c : ℕ × ℕ, Covers acs p c →
      q0 c.1 c.2 ≤ blockMax q0 p.1 p.2 (acs p.1 p.2).coveredBlocksY
        (acs p.1 p.2).coveredBlocksX) ∧
    (∃ c : ℕ × ℕ, Covers acs p c ∧
      blockMax q0 p.1 p.2 (acs p.1 p.2).coveredBlocksY
        (acs p.1 p.2).coveredBlocksX = q0 c.1 c.2) := by
  obtain ⟨hcy, hcx, hyb, hxb⟩ := hv.bounds p hp1 hp2 hf
  have hcell : ∀ c : ℕ × ℕ, Covers acs p c →
      AdjustQuantField acs w h q0 c.1 c.2 =
        blockMax q0 p.1 p.2 (acs p.1 p.2).coveredBlocksY
          (acs p.1 p.2).coveredBlocksX :=
    fun c hc => (adjustQuantField_char acs w h q0 hv c).1 p hp1 hp2 hc
  refine ⟨hcell, ?_, ?_, ?_⟩
  · intro c c' hc hc'
    rw [hcell c hc, hcell c' hc']
  · intro c hc
    exact le_blockMax q0 p.1 p.2 _ _ hc.2.1 hc.2.2.1 hc.2.2.2.1 hc.2.2.2.2
  · obtain ⟨a, b, h1, h2, h3, h4, he⟩ := blockMax_attained q0 p.1 p.2 _ _ hcy hcx
    exact ⟨(a, b), ⟨hf, h1, h2, h3, h4⟩, he⟩

theorem C5_AdjustQuantField_block_max_witness :
    AdjustQuantField (fun _ _ => ⟨true, 1, 1⟩) 1 1 (fun _ _ => 2) 0 0 =
      blockMax (fun _ _ => 2) 0 0 1 1 := by
  have hv : ValidStrategy (fun _ _ => (⟨true, 1, 1⟩ : AcStrategy)) 1 1 := by
    constructor
    · intro p hp1 hp2 _
      refine ⟨by norm_num, by norm_num, ?_, ?_⟩
      · show p.1 + 1 ≤ 1
        omega
      · show p.2 + 1 ≤ 1
        omega
    · intro p q c hp1 hp2 hq1 hq2 hpc hqc
      have h1 : p.1 = 0 := by omega
      have h2 : p.2 = 0 := by omega
      have h3 : q.1 = 0 := by omega
      have h4 : q.2 = 0 := by omega
      exact Prod.ext (by rw [h1, h3]) (by rw [h2, h4])
  exact (C5_AdjustQuantField_block_max (fun _ _ => ⟨true, 1, 1⟩) 1 1
    (fun _ _ => 2) hv (0, 0) (by norm_num) (by norm_num) rfl).1 (0, 0)
    ⟨rfl, by norm_num, by norm_num, by norm_num, by norm_num⟩

/-! ## C6 -/

/-- C6: AdjustQuantField is idempotent on every valid AC strategy: applying it
twice gives the same field as applying it once. -/
theorem C6_AdjustQuantField_idempotent (acs : ℕ → ℕ → AcStrategy) (w h : ℕ)
    (q0 : ℕ → ℕ → ℝ) (hv : ValidStrategy acs w h) :
    ∀ y x : ℕ, AdjustQuantField acs w h (AdjustQuantField acs w h q0) y x =
      AdjustQuantField acs w h q0 y x := by
  intro y x
  by_cases hcov : ∃ p : ℕ × ℕ, p.1 < h ∧ p.2 < w ∧ Covers acs p (y, x)
  · obtain ⟨p, hp1, hp2, hpc⟩ := hcov
    obtain ⟨hcy, hcx, hyb, hxb⟩ := hv.bounds p hp1 hp2 hpc.1
    have h1 : AdjustQuantField acs w h q0 y x =
        blockMax q0 p.1 p.2 (acs p.1 p.2).coveredBlocksY
          (acs p.1 p.2).coveredBlocksX :=
      (adjustQuantField_char acs w h q0 hv (y, x)).1 p hp1 hp2 hpc
    have h2 : AdjustQuantField acs w h (AdjustQuantField acs w h q0) y x =
        blockMax (AdjustQuantField acs w h q0) p.1 p.2
          (acs p.1 p.2).coveredBlocksY (acs p.1 p.2).coveredBlocksX :=
      (adjustQuantField_char acs w h (AdjustQuantField acs w h q0) hv (y, x)).1
        p hp1 hp2 hpc
    have hconst : ∀ a b : ℕ, p.1 ≤ a → a < p.1 + (acs p.1 p.2).coveredBlocksY →
        p.2 ≤ b → b < p.2 + (acs p.1 p.2).coveredBlocksX →
        AdjustQuantField acs w h q0 a b =
          blockMax q0 p.1 p.2 (acs p.1 p.2).coveredBlocksY
            (acs p.1 p.2).coveredBlocksX :=
      fun a b ha1 ha2 hb1 hb2 =>
        (adjustQuantField_char acs w h q0 hv (a, b)).1 p hp1 hp2
          ⟨hpc.1, ha1, ha2, hb1, hb2⟩
    rw [h2, h1]
    exact blockMax_const _ p.1 p.2 _ _ _ hconst
      (hconst p.1 p.2 (le_refl _) (by omega) (le_refl _) (by omega))
  · push_neg at hcov
    have hnone : ∀ p : ℕ × ℕ, p.1 < h → p.2 < w → ¬ Covers acs p (y, x) :=
      fun p hp1 hp2 => hcov p hp1 hp2
    exact (adjustQuantField_char acs w h (AdjustQuantField acs w h q0) hv
      (y, x)).2 hnone

theorem C6_AdjustQuantField_idempotent_witness :
    AdjustQuantField (fun _ _ => ⟨true, 1, 1⟩) 1 1
      (AdjustQuantField (fun _ _ => ⟨true, 1, 1⟩) 1 1 fun _ _ => 3) 0 0 =
      AdjustQuantField (fun _ _ => ⟨true, 1, 1⟩) 1 1 (fun _ _ => 3) 0 0 := by
  have hv : ValidStrategy (fun _ _ => (⟨true, 1, 1⟩ : AcStrategy)) 1 1 := by
    constructor
    · intro p hp1 hp2 _
      refine ⟨by norm_num, by norm_num, ?_, ?_⟩
      · show p.1 + 1 ≤ 1
        omega
      · show p.2 + 1 ≤ 1
        omega
    · intro p q c hp1 hp2 hq1 hq2 hpc hqc
      have h1 : p.1 = 0 := by omega
      have h2 : p.2 = 0 := by omega
      have h3 : q.1 = 0 := by omega
      have h4 : q.2 = 0 := by omega
      exact Prod.ext (by rw [h1, h3]) (by rw [h2, h4])
  exact C6_AdjustQuantField_idempotent (fun _ _ => ⟨true, 1, 1⟩) 1 1
    (fun _ _ => 3) hv 0 0

/-! ## DistToPeakMap -/

noncomputable section

/-- The integers `a, a+1, ..., b-1` (the window loops of the source run over
`int` bounds). -/
def intRange (a b : ℤ) : List ℤ := (List.range (b - a).toNat).map fun i => a + (i : ℤ)

def winYMin (local_radius : ℤ) (y0 : ℕ) : ℤ := max 0 ((y0 : ℤ) - local_radius)

def winYMax (h : ℕ) (local_radius : ℤ) (y0 : ℕ) : ℤ :=
  min (h : ℤ) ((y0 : ℤ) + 1 + local_radius)

def winXMin (local_radius : ℤ) (x0 : ℕ) : ℤ := max 0 ((x0 : ℤ) - local_radius)

def winXMax (w : ℕ) (local_radius : ℤ) (x0 : ℕ) : ℤ :=
  min (w : ℤ) ((x0 : ℤ) + 1 + local_radius)

/-- The cells of the clamped window around `p`, in loop order. -/
def windowCells (w h : ℕ) (local_radius : ℤ) (p : ℕ × ℕ) : List (ℤ × ℤ) :=
  (intRange (winYMin local_radius p.1) (winYMax h local_radius p.1)).flatMap fun y =>
    (intRange (winXMin local_radius p.2) (winXMax w local_radius p.2)).map fun x => (y, x)

/-- Value `local_max`, seeded with `peak_min`. -/
def localMaxAt (field : ℕ → ℕ → ℝ) (w h : ℕ) (peak_min : ℝ) (local_radius : ℤ)
    (p : ℕ × ℕ) : ℝ :=
  (windowCells w h local_radius p).foldl
    (fun m c => max m (field c.1.toNat c.2.toNat)) peak_min

/-- The peak test of the source. -/
def isPeakAt (field : ℕ → ℕ → ℝ) (w h : ℕ) (peak_min : ℝ) (local_radius : ℤ)
    (peak_weight : ℝ) (p : ℕ × ℕ) : Prop :=
  field p.1 p.2 >
    (1 - peak_weight) * peak_min +
      peak_weight * localMaxAt field w h peak_min local_radius p

/-- Cell `c` lies in the clamped window around `p`. -/
def InWindow (w h : ℕ) (local_radius : ℤ) (p c : ℕ × ℕ) : Prop :=
  winYMin local_radius p.1 ≤ (c.1 : ℤ) ∧ (c.1 : ℤ) < winYMax h local_radius p.1 ∧
  winXMin local_radius p.2 ≤ (c.2 : ℤ) ∧ (c.2 : ℤ) < winXMax w local_radius p.2

/-- Distance `std::max(std::abs(y - y0), std::abs(x - x0))` as a float. -/
def chebDist (p c : ℕ × ℕ) : ℝ :=
  ((max (|(c.1 : ℤ) - (p.1 : ℤ)|) (|(c.2 : ℤ) - (p.2 : ℤ)|) : ℤ) : ℝ)

instance instDecidableIsPeakAt (field : ℕ → ℕ → ℝ) (w h : ℕ) (peak_min : ℝ)
    (local_radius : ℤ) (peak_weight : ℝ) (p : ℕ × ℕ) :
    Decidable (isPeakAt field w h peak_min local_radius peak_weight p) :=
  decidable_of_iff
    (field p.1 p.2 >
      (1 - peak_weight) * peak_min +
        peak_weight * localMaxAt field w h peak_min local_radius p)
    (by rw [isPeakAt])

instance instDecidableInWindow (w h : ℕ) (local_radius : ℤ) (p c : ℕ × ℕ) :
    Decidable (InWindow w h local_radius p c) :=
  decidable_of_iff
    (winYMin local_radius p.1 ≤ (c.1 : ℤ) ∧
      (c.1 : ℤ) < winYMax h local_radius p.1 ∧
      winXMin local_radius p.2 ≤ (c.2 : ℤ) ∧
      (c.2 : ℤ) < winXMax w local_radius p.2)
    (by rw [InWindow])

/-- Processing of one candidate centre `p`: if it passes the peak test, every
window cell is stamped with the Chebyshev distance when unset (−1) or larger. -/
def distToPeakStep (field : ℕ → ℕ → ℝ) (w h : ℕ) (peak_min : ℝ) (local_radius : ℤ)
    (peak_weight : ℝ) (res : ℕ → ℕ → ℝ) (p : ℕ × ℕ) : ℕ → ℕ → ℝ :=
  if isPeakAt field w h peak_min local_radius peak_weight p then
    fun y x =>
      if InWindow w h local_radius p (y, x) then
        if res y x < 0 ∨ res y x > chebDist p (y, x) then chebDist p (y, x) else res y x
      else res y x
  else res

/-- The full DistToPeakMap scan, starting from the all-(−1) image. -/
def DistToPeakMap (field : ℕ → ℕ → ℝ) (w h : ℕ) (peak_min : ℝ) (local_radius : ℤ)
    (peak_weight : ℝ) : ℕ → ℕ → ℝ :=
  (rowMajorIndices w h).foldl
    (distToPeakStep field w h peak_min local_radius peak_weight) (fun _ _ => -1)

end

theorem distToPeakStep_apply (field : ℕ → ℕ → ℝ) (w h : ℕ) (pm : ℝ) (R : ℤ)
    (pw : ℝ) (res : ℕ → ℕ → ℝ) (p : ℕ × ℕ) (y x : ℕ) :
    distToPeakStep field w h pm R pw res p y x =
      if isPeakAt field w h pm R pw p then
        if InWindow w h R p (y, x) then
          if res y x < 0 ∨ res y x > chebDist p (y, x) then chebDist p (y, x)
          else res y x
        else res y x
      else res y x := by
  rw [distToPeakStep]
  split
  · rfl
  · rfl

theorem inWindow_self (w h : ℕ) (R : ℤ) (p : ℕ × ℕ) (hR : 0 ≤ R)
    (hp1 : p.1 < h) (hp2 : p.2 < w) : InWindow w h R p p := by
  rw [InWindow, winYMin, winYMax, winXMin, winXMax]
  refine ⟨?_, ?_, ?_, ?_⟩ <;> omega

theorem chebDist_self (p : ℕ × ℕ) : chebDist p p = 0 := by
  rw [chebDist]
  simp

theorem chebDist_nonneg (p c : ℕ × ℕ) : 0 ≤ chebDist p c := by
  rw [chebDist]
  have h : (0 : ℤ) ≤ max (|(c.1 : ℤ) - (p.1 : ℤ)|) (|(c.2 : ℤ) - (p.2 : ℤ)|) :=
    le_trans (abs_nonneg _) (le_max_left _ _)
  exact_mod_cast h

/-- Invariant for a fixed peak `p` during the scan: once `p` has been
processed, its own cell is 0; the cell is always either unset or nonnegative. -/
def PeakInv (p : ℕ × ℕ) (P : List (ℕ × ℕ)) (res : ℕ → ℕ → ℝ) : Prop :=
  (p ∈ P → res p.1 p.2 = 0) ∧ (res p.1 p.2 = -1 ∨ 0 ≤ res p.1 p.2)

theorem peakInv_step (field : ℕ → ℕ → ℝ) (w h : ℕ) (pm : ℝ) (R : ℤ) (pw : ℝ)
    (hR : 0 ≤ R) (p : ℕ × ℕ) (hp1 : p.1 < h) (hp2 : p.2 < w)
    (hpeak : isPeakAt field w h pm R pw p) (P : List (ℕ × ℕ))
    (res : ℕ → ℕ → ℝ) (n : ℕ × ℕ) (hinv : PeakInv p P res) :
    PeakInv p (P ++ [n]) (distToPeakStep field w h pm R pw res n) := by
  have happ := distToPeakStep_apply field w h pm R pw res n p.1 p.2
  by_cases hpk : isPeakAt field w h pm R pw n
  · rw [if_pos hpk] at happ
    by_cases hnp : n = p
    · subst hnp
      have hwin : InWindow w h R n n := inWindow_self w h R n hR hp1 hp2
      have hz : distToPeakStep field w h pm R pw res n n.1 n.2 = 0 := by
        rw [happ, if_pos hwin, chebDist_self]
        rcases hinv.2 with hm | hm
        · rw [if_pos (Or.inl (by rw [hm]; norm_num))]
        · rcases lt_or_eq_of_le hm with hlt | heq
          · rw [if_pos (Or.inr hlt)]
          · rw [if_neg (by rw [← heq]; norm_num)]
            exact heq.symm
      exact ⟨fun _ => hz, Or.inr (le_of_eq hz.symm)⟩
    · constructor
      · intro hmem
        have hpP : p ∈ P := by
          rcases List.mem_append.mp hmem with hm | hm
          · exact hm
          · exact absurd (List.mem_singleton.mp hm) (fun he => hnp he.symm)
        have h0 := hinv.1 hpP
        rw [happ]
        split
        · rw [h0, if_neg ?_]
          push_neg
          exact ⟨by norm_num, chebDist_nonneg n p⟩
        · exact h0
      · rw [happ]
        split
        · split
          · exact Or.inr (chebDist_nonneg n p)
          · exact hinv.2
        · exact hinv.2
  · rw [if_neg hpk] at happ
    constructor
    · intro hmem
      rcases List.mem_append.mp hmem with hm | hm
      · rw [happ]
        exact hinv.1 hm
      · have he := List.mem_singleton.mp hm
        subst he
        exact absurd hpeak hpk
    · rw [happ]
      exact hinv.2

theorem peakInv_foldl (field : ℕ → ℕ → ℝ) (w h : ℕ) (pm : ℝ) (R : ℤ) (pw : ℝ)
    (hR : 0 ≤ R) (p : ℕ × ℕ) (hp1 : p.1 < h) (hp2 : p.2 < w)
    (hpeak : isPeakAt field w h pm R pw p) (L : List (ℕ × ℕ)) :
    ∀ (P : List (ℕ × ℕ)) (res : ℕ → ℕ → ℝ), PeakInv p P res →
    PeakInv p (P ++ L) (L.foldl (distToPeakStep field w h pm R pw) res) := by
  induction L with
  | nil =>
    intro P res hi
    simpa
  | cons n t ih =>
    intro P res hi
    have h1 := peakInv_step field w h pm R pw hR p hp1 hp2 hpeak P res n hi
    have h2 := ih (P ++ [n]) _ h1
    rw [List.append_assoc, List.singleton_append] at h2
    exact h2

theorem noPeakWindow_foldl (field : ℕ → ℕ → ℝ) (w h : ℕ) (pm : ℝ) (R : ℤ)
    (pw : ℝ) (c : ℕ × ℕ)
    (hc : ∀ n : ℕ × ℕ, n.1 < h → n.2 < w → isPeakAt field w h pm R pw n →
      ¬ InWindow w h R n c)
    (L : List (ℕ × ℕ)) :
    (∀ n ∈ L, n.1 < h ∧ n.2 < w) →
    ∀ res : ℕ → ℕ → ℝ, res c.1 c.2 = -1 →
    (L.foldl (distToPeakStep field w h pm R pw) res) c.1 c.2 = -1 := by
  induction L with
  | nil =>
    intro _ res hres
    simpa
  | cons n t ih =>
    intro hL res hres
    refine ih (fun m hm => hL m (List.mem_cons_of_mem _ hm)) _ ?_
    have hn := hL n (List.mem_cons_self _ _)
    have happ := distToPeakStep_apply field w h pm R pw res n c.1 c.2
    by_cases hpk : isPeakAt field w h pm R pw n
    · rw [if_pos hpk, if_neg (hc n hn.1 hn.2 hpk)] at happ
      rw [happ]
      exact hres
    · rw [if_neg hpk] at happ
      rw [happ]
      exact hres

/-! ## C9 -/

/-- C9 counterexample: with a negative `local_radius` the window is empty, so a
cell that passes the peak test is never stamped and keeps −1 instead of the
claimed 0 (1-by-1 field of value 5, `peak_min = 1`, `local_radius = −1`,
`peak_weight = 0`). -/
theorem C9_negative_radius_cex :
    isPeakAt (fun _ _ => 5) 1 1 1 (-1) 0 (0, 0) ∧
    DistToPeakMap (fun _ _ => 5) 1 1 1 (-1) 0 0 0 = -1 := by
  have hpk : isPeakAt (fun _ _ => 5) 1 1 1 (-1) 0 (0, 0) := by
    rw [isPeakAt]
    norm_num
  refine ⟨hpk, ?_⟩
  have hrm : rowMajorIndices 1 1 = [(0, 0)] := by
    decide
  rw [DistToPeakMap, hrm, List.foldl_cons, List.foldl_nil]
  have hwin : ¬ InWindow 1 1 (-1) (0, 0) (0, 0) := by
    rw [InWindow, winYMin, winYMax, winXMin, winXMax]
    omega
  rw [distToPeakStep_apply, if_pos hpk, if_neg hwin]

/-- C9 (amended): for every field, `peak_min`, `peak_weight` and NONNEGATIVE
`local_radius`, DistToPeakMap assigns 0 to every in-bounds cell flagged a peak,
and −1 to every cell inside the window of no in-bounds peak. -/
theorem C9_DistToPeakMap_spec (field : ℕ → ℕ → ℝ) (w h : ℕ) (pm : ℝ) (R : ℤ)
    (pw : ℝ) (hR : 0 ≤ R) :
    (∀ y0 x0 : ℕ, y0 < h → x0 < w → isPeakAt field w h pm R pw (y0, x0) →
      DistToPeakMap field w h pm R pw y0 x0 = 0) ∧
    (∀ y x : ℕ,
      (∀ y0 x0 : ℕ, y0 < h → x0 < w → isPeakAt field w h pm R pw (y0, x0) →
        ¬ InWindow w h R (y0, x0) (y, x)) →
      DistToPeakMap field w h pm R pw y x = -1) := by
  constructor
  · intro y0 x0 hy hx hpk
    have hinit : PeakInv (y0, x0) [] (fun _ _ => -1) :=
      ⟨fun hm => absurd hm (List.not_mem_nil _), Or.inl rfl⟩
    have hfold := peakInv_foldl field w h pm R pw hR (y0, x0) hy hx hpk
      (rowMajorIndices w h) [] (fun _ _ => -1) hinit
    rw [List.nil_append] at hfold
    exact hfold.1 (mem_rowMajorIndices.mpr ⟨hy, hx⟩)
  · intro y x hno
    exact noPeakWindow_foldl field w h pm R pw (y, x)
      (fun n h1 h2 hp => by
        have := hno n.1 n.2 h1 h2
        exact this hp)
      (rowMajorIndices w h) (fun n hn => mem_rowMajorIndices.mp hn)
      (fun _ _ => -1) rfl

theorem C9_DistToPeakMap_spec_witness :
    DistToPeakMap (fun _ _ => 5) 1 1 1 0 0 0 0 = 0 := by
  refine (C9_DistToPeakMap_spec (fun _ _ => 5) 1 1 1 0 0 (by norm_num)).1 0 0
    (by norm_num) (by norm_num) ?_
  rw [isPeakAt]
  have hlm : localMaxAt (fun _ _ => 5) 1 1 1 0 (0, 0) = 5 := by
    rw [localMaxAt]
    have hw : windowCells 1 1 0 (0, 0) = [(0, 0)] := by
      decide
    rw [hw, List.foldl_cons, List.foldl_nil]
    norm_num
  rw [hlm]
  norm_num

end JxlAq
